import Mathlib

/-!
Shallow embedding of the evaluation harness of `vibe-search`
(`examples/evaluate.js`): the metric functions, the fingerprint cache logic
of `runOne`, and the bounded concurrency pool `promisePool`.

Numbers: JavaScript numeric results of the metric functions are modelled
exactly over `ℚ` (all divisions involved are exact in the idealized
semantics), except `ndcgAtK` whose `Math.log2` forces `ℝ`.
Strings are modelled by Lean `String`; `charCodeAt` is modelled by the
code point (`Char.toNat`), which agrees with UTF-16 code units on the
basic multilingual plane.
-/

namespace VibeSearch

/-- Embeds `uniqueOrder` (evaluate.js lines 54-61), generalized over the
`seen` set accumulated so far (the JS starts from an empty `Set`). -/
def uniqueOrderAux (seen : List String) : List String → List String
  | [] => []
  | x :: xs => if x ∈ seen then uniqueOrderAux seen xs
               else x :: uniqueOrderAux (x :: seen) xs

/-- `uniqueOrder(list)`: keep the first occurrence of each element, in order. -/
def uniqueOrder (l : List String) : List String := uniqueOrderAux [] l

/-- Result record of `precisionRecallF1` (evaluate.js lines 64-74). -/
structure PRF where
  precision : ℚ
  «recall» : ℚ
  f1 : ℚ
  tp : ℕ
  fp : ℕ
  fn : ℕ
deriving Repr, DecidableEq

/-- Embeds `precisionRecallF1` (evaluate.js lines 64-74): set-based
precision / recall / F1.  The JS `Set` built from a list is modelled by
`uniqueOrder` (same membership, first-insertion iteration order);
`setTruth.has` is list membership. -/
def precisionRecallF1 (pred truth : List String) : PRF :=
  let setPred := uniqueOrder pred
  let setTruth := uniqueOrder truth
  let tp := (setPred.filter (fun x => decide (x ∈ setTruth))).length
  let fp := setPred.length - tp
  let fn := setTruth.length - tp
  let precision : ℚ := if setPred.length = 0 then 0 else (tp : ℚ) / setPred.length
  let «recall» : ℚ := if setTruth.length = 0 then 0 else (tp : ℚ) / setTruth.length
  let f1 : ℚ := if precision + «recall» = 0 then 0
                else 2 * precision * «recall» / (precision + «recall»)
  ⟨precision, «recall», f1, tp, fp, fn⟩

/-- The running loop of `averagePrecision` (evaluate.js lines 78-81):
`hit` hits so far, `i` the 0-based index of the current position;
a position whose token is in the truth set adds `(hit+1)/(i+1)`. -/
def apAux (truth : List String) (hit i : ℕ) : List String → ℚ
  | [] => 0
  | p :: ps =>
      if p ∈ truth then ((hit : ℚ) + 1) / ((i : ℚ) + 1) + apAux truth (hit + 1) (i + 1) ps
      else apAux truth hit (i + 1) ps

/-- Embeds `averagePrecision` (evaluate.js lines 76-83).  `setTruth` is the
`Set` built from `truth`: membership tests are list membership, and
`setTruth.size` is `(uniqueOrder truth).length`. -/
def averagePrecision (pred truth : List String) : ℚ :=
  if (uniqueOrder truth).length = 0 then 0
  else apAux truth 0 0 pred / ((uniqueOrder truth).length : ℚ)

/-- Embeds `reciprocalRank` (evaluate.js lines 85-91). -/
def reciprocalRank (pred truth : List String) : ℚ :=
  match pred.findIdx? (fun p => decide (p ∈ truth)) with
  | some i => 1 / ((i : ℚ) + 1)
  | none => 0

/-- The `reduce` of `ndcgAtK` (evaluate.js line 96): discounted sum of a
gain list, `i` being the 0-based index of the first element. -/
noncomputable def dcgAux (i : ℕ) : List ℕ → ℝ
  | [] => 0
  | g :: gs => (g : ℝ) / Real.logb 2 ((i : ℝ) + 2) + dcgAux (i + 1) gs

/-- Embeds `ndcgAtK` (evaluate.js lines 93-99): binary gains from the first
`k` predictions, ideal DCG from `min k truth.length` gains of 1. -/
noncomputable def ndcgAtK (pred truth : List String) (k : ℕ) : ℝ :=
  let gains := (pred.take k).map (fun p => if p ∈ truth then (1 : ℕ) else 0)
  let dcg := dcgAux 0 gains
  let ideal := dcgAux 0 (List.replicate (min k truth.length) 1)
  if ideal > 0 then dcg / ideal else 0

/-- Result record of `prfForText` (evaluate.js lines 126-140). -/
structure PRFText where
  precision : ℚ
  «recall» : ℚ
  f1 : ℚ
  tp : ℕ
  predCount : ℕ
  truthCount : ℕ
deriving Repr, DecidableEq

/-- Embeds `prfForText` (evaluate.js lines 126-140).  The JS `Map` built by
`multisetFromList` maps each token to its count and iterates in first
insertion order, i.e. over `uniqueOrder` of the list; `map.get(token)` is
`List.count`. -/
def prfForText (pred truth : List String) : PRFText :=
  let tp := ((uniqueOrder pred).map (fun t => min (pred.count t) (truth.count t))).sum
  let predCount := ((uniqueOrder pred).map (fun t => pred.count t)).sum
  let truthCount := ((uniqueOrder truth).map (fun t => truth.count t)).sum
  let precision : ℚ := if predCount = 0 then 0 else (tp : ℚ) / predCount
  let «recall» : ℚ := if truthCount = 0 then 0 else (tp : ℚ) / truthCount
  let f1 : ℚ := if precision + «recall» = 0 then 0
                else 2 * precision * «recall» / (precision + «recall»)
  ⟨precision, «recall», f1, tp, predCount, truthCount⟩

/-! ### Dataset-load truth normalization (main, evaluate.js lines 257-262) -/

/-- Embeds the truth normalization applied once at dataset load for
text-mode items: `uniqueOrder((d.truth || []).map(x => String(x)))`.
`String(x)` is the identity on strings. -/
def normalizeTruthsText (truth : List String) : List String :=
  uniqueOrder (truth.map (fun x => x))

/-! ### Cache key derivation (evaluate.js lines 102-105 and 143-144) -/

/-- `ToInt32` of ECMAScript: wrap an integer into `[-2^31, 2^31)`. -/
def toInt32 (x : ℤ) : ℤ := (x + 2 ^ 31) % 2 ^ 32 - 2 ^ 31

/-- `ToUint32` of ECMAScript (`h >>> 0`): wrap into `[0, 2^32)`. -/
def toUint32 (x : ℤ) : ℕ := (x % 2 ^ 32).toNat

/-- One step of the `djb2` loop (evaluate.js line 103):
`h = ((h << 5) + h) + c`.  `h << 5` coerces `h` to int32, shifts, and wraps
to int32 again; the two additions are exact. -/
def djb2Step (h : ℤ) (c : ℕ) : ℤ := toInt32 (toInt32 h * 32) + h + c

/-- Lowercase hex digit for `d < 16` (as produced by `toString(16)`). -/
def hexDigitChar (d : ℕ) : Char :=
  if d < 10 then Char.ofNat (48 + d) else Char.ofNat (87 + d)

/-- Hex digit list of `n`, most significant first, empty for 0; the fuel
argument (any bound on the number of division steps, e.g. `n` itself)
keeps the recursion structural. -/
def hexDigitsAux : ℕ → ℕ → List Char
  | 0, _ => []
  | fuel + 1, n => if n = 0 then [] else hexDigitsAux fuel (n / 16) ++ [hexDigitChar (n % 16)]

/-- Hex digit list of `n`, most significant first, empty for 0. -/
def hexDigits (n : ℕ) : List Char := hexDigitsAux n n

/-- `n.toString(16)` for a nonnegative integer `n`. -/
def toHexString (n : ℕ) : String :=
  if n = 0 then "0" else String.mk (hexDigits n)

/-- Embeds `djb2` (evaluate.js lines 102-105).  `charCodeAt` is modelled by
the code point, which agrees with UTF-16 code units on the BMP. -/
def djb2 (s : String) : String :=
  toHexString (toUint32 (s.data.foldl (fun h c => djb2Step h c.toNat) 5381))

/-- `item.content` is a string or an array of strings. -/
inductive Content
  | str (s : String)
  | arr (l : List String)
deriving Repr, DecidableEq

/-- JSON escaping of one character, as `JSON.stringify` performs on
strings. -/
def jsonEscapeChar (c : Char) : List Char :=
  if c = '"' then ['\\', '"']
  else if c = '\\' then ['\\', '\\']
  else if c.toNat = 10 then ['\\', 'n']
  else if c.toNat = 13 then ['\\', 'r']
  else if c.toNat = 9 then ['\\', 't']
  else if c.toNat = 8 then ['\\', 'b']
  else if c.toNat = 12 then ['\\', 'f']
  else if c.toNat < 32 then
    ['\\', 'u', '0', '0', hexDigitChar (c.toNat / 16), hexDigitChar (c.toNat % 16)]
  else [c]

/-- `JSON.stringify` of a string value. -/
def jsonQuote (s : String) : String :=
  "\"" ++ String.mk (s.data.flatMap jsonEscapeChar) ++ "\""

/-- `JSON.stringify` of the `c` field (string or array of strings). -/
def serializeContent : Content → String
  | .str s => jsonQuote s
  | .arr l => "[" ++ String.intercalate "," (l.map jsonQuote) ++ "]"

/-- Embeds the key-object serialization of `runOne` (evaluate.js line 143-144):
`JSON.stringify({ c: item.content, q: item.query, m: model, k })`.
An `undefined` model (`none`) is omitted by `JSON.stringify`. -/
def serializeKeyObj (c : Content) (q : String) (m : Option String) (k : ℕ) : String :=
  "\x7b\"c\":" ++ serializeContent c ++ ",\"q\":" ++ jsonQuote q ++
    (match m with
     | some s => ",\"m\":" ++ jsonQuote s
     | none => "") ++
    ",\"k\":" ++ toString k ++ "\x7d"

/-- The cache key of `runOne` (evaluate.js line 144): djb2 of the
serialized fingerprint. -/
def cacheKey (c : Content) (q : String) (m : Option String) (k : ℕ) : String :=
  djb2 (serializeKeyObj c q m k)

/-! ### `runOne` cache behaviour (evaluate.js lines 142-196) -/

/-- A cache file body: `pred` and `elapsedMs`, as written by `writeJSON`. -/
structure CacheEntry where
  pred : List String
  elapsedMs : ℕ
deriving Repr, DecidableEq

/-- The cache directory: maps a key to `none` when no file exists, to
`some none` when the file exists but `readJSON` fails to parse it
(evaluate.js line 35 returns the `null` fallback), and to `some (some e)`
when it parses. -/
def CacheMap : Type := String → Option (Option CacheEntry)

/-- The outcome of `runOne`: the returned record plus the number of search
invocations it performed (0 or 1). -/
structure RunResult where
  pred : List String
  elapsedMs : ℕ
  fromCache : Bool
  searchCalls : ℕ
deriving Repr, DecidableEq

/-- Embeds `runOne` (evaluate.js lines 142-196).  The search capability is
abstracted by `searchAnswers`, the list of strings the (dry or Gemini)
search produces for the item — the answers in text mode, or the site URLs
already mapped through `normalizeUrl` in url mode — and by `elapsed`, the
measured wall-clock time of that call.  With caching enabled and a parsed
entry present, the entry is returned as-is with `fromCache = true` and no
search call; otherwise the prediction is the deduplicated, `k`-truncated
search output, written back to the cache when caching is enabled. -/
def runOne (cache : CacheMap) (useCache : Bool) (content : Content) (query : String)
    (model : Option String) (k : ℕ) (searchAnswers : List String) (elapsed : ℕ) :
    RunResult × CacheMap :=
  let key := cacheKey content query model k
  match useCache, cache key with
  | true, some (some e) => (⟨e.pred, e.elapsedMs, true, 0⟩, cache)
  | _, _ =>
      let pred := (uniqueOrder searchAnswers).take k
      let cache' : CacheMap :=
        if useCache then
          fun s => if s = key then some (some ⟨pred, elapsed⟩) else cache s
        else cache
      (⟨pred, elapsed, false, 1⟩, cache')

/-! ### The bounded concurrency pool `promisePool` (evaluate.js lines 198-213)

The JS pool is single-threaded cooperative: the `next` closure launches
workers while `active < limit` and items remain, and each completion
callback records its result at its own index, decrements `active`, and
calls `next` again.  The embedding makes the implicit set of in-flight
tasks explicit (`active` holds their indices) and takes the
nondeterministic completion order as an input: a schedule, the list of
in-flight indices in the order their promises settle.  A worker invocation
is abstracted by its outcome, `Except.ok` a value or `Except.error` the
thrown message (captured by the `.catch` as `{error: e.message}`). -/

/-- A settled result slot: a worker value or a captured `{error}`. -/
inductive PoolRes (β : Type)
  | ok (b : β)
  | err (msg : String)
deriving Repr, DecidableEq

/-- Pool state: `results` (one slot per item, `none` while unsettled),
`idx` the cursor of the next item to dispatch, `active` the indices of
in-flight workers. -/
structure PoolState (β : Type) where
  results : List (Option (PoolRes β))
  idx : ℕ
  active : List ℕ
deriving Repr, DecidableEq

/-- The launch loop of `next` (evaluate.js lines 204-209): while the active
count is below `limit` and items remain, dispatch the item at the cursor.
`fuel` bounds the number of launches (`n - idx` launches are possible). -/
def refillAux (limit n : ℕ) : ℕ → PoolState β → PoolState β
  | 0, s => s
  | fuel + 1, s =>
      if s.active.length < limit ∧ s.idx < n then
        refillAux limit n fuel ⟨s.results, s.idx + 1, s.idx :: s.active⟩
      else s

/-- Launch workers until the pool is full or all items are dispatched. -/
def refill (limit n : ℕ) (s : PoolState β) : PoolState β :=
  refillAux limit n (n - s.idx) s

/-- The outcome the pool records for task `cur`: the result of
`worker(items[cur], cur)` or the thrown message. -/
def outcomeAt (items : List α) (worker : α → ℕ → Except String β) (cur : ℕ) : PoolRes β :=
  match items[cur]? with
  | some a =>
      match worker a cur with
      | Except.ok b => PoolRes.ok b
      | Except.error msg => PoolRes.err msg
  | none => PoolRes.err ""

/-- A completion callback for in-flight task `j` (evaluate.js lines
206-208): record the result at index `j`, free the slot, and run the
launch loop again. -/
def completeTask (limit n : ℕ) (outcome : ℕ → PoolRes β) (j : ℕ) (s : PoolState β) :
    PoolState β :=
  refill limit n ⟨s.results.set j (some (outcome j)), s.idx, s.active.erase j⟩

/-- The pool state after the initial `next()` call (evaluate.js line 211). -/
def initPool (β : Type) (limit n : ℕ) : PoolState β :=
  refill limit n ⟨List.replicate n none, 0, []⟩

/-- One scheduler step: settle the in-flight task `j` (invalid schedules
yield `none`). -/
def poolStep (limit n : ℕ) (outcome : ℕ → PoolRes β) (acc : Option (PoolState β)) (j : ℕ) :
    Option (PoolState β) :=
  match acc with
  | none => none
  | some s => if j ∈ s.active then some (completeTask limit n outcome j s) else none

/-- Embeds `promisePool(items, limit, worker)` run under a given completion
schedule: the state after the listed in-flight tasks settle in order. -/
def runPool (items : List α) (limit : ℕ) (worker : α → ℕ → Except String β)
    (sch : List ℕ) : Option (PoolState β) :=
  sch.foldl (poolStep limit items.length (outcomeAt items worker))
    (some (initPool β limit items.length))

/-- The pool resolves once every item is dispatched and none is in flight
(evaluate.js line 203). -/
def poolDone (n : ℕ) (s : PoolState β) : Prop :=
  s.active = [] ∧ n ≤ s.idx

/-- The pool invariant: results has one slot per item; the cursor never
passes the end; in-flight indices are dispatched, distinct items; every
dispatched, settled index holds its own outcome; every undispatched slot is
still empty. -/
def PoolInv (n : ℕ) (outcome : ℕ → PoolRes β) (s : PoolState β) : Prop :=
  s.results.length = n ∧ s.idx ≤ n ∧ (∀ j ∈ s.active, j < s.idx) ∧ s.active.Nodup ∧
  (∀ i, i < s.idx → i ∉ s.active → s.results[i]? = some (some (outcome i))) ∧
  (∀ i, s.idx ≤ i → i < n → s.results[i]? = some none)

/-! ### `normalizeUrl` (evaluate.js lines 38-52) and the pre-scoring re-map
of `main` (evaluate.js line 279) -/

/-- A character allowed in a URL scheme after its first letter. -/
def isSchemeChar (c : Char) : Bool :=
  c.isAlpha || c.isDigit || c == '+' || c == '-' || c == '.'

/-- The components `normalizeUrl` reads off a parsed URL: `protocol`
(scheme with its trailing colon), `hostname`, `pathname` (`"/"` when the
URL has none) and `search` (leading `?` included, empty when absent). -/
structure ParsedUrl where
  protocol : List Char
  hostname : List Char
  pathname : List Char
  search : List Char
deriving Repr, DecidableEq

/-- Partial model of the WHATWG parser behind `new URL(u)` (evaluate.js
line 41), covering absolute `scheme://host[/path][?query]` URLs with no
userinfo, port, fragment, percent-encoding or host canonicalization — the
shapes the harness's URL lists exercise.  `none` is the thrown parse
error, taken to the `catch` fallback. -/
def parseUrl (cs : List Char) : Option ParsedUrl :=
  match cs.span (fun c => !(c == ':')) with
  | (scheme, rest) =>
    match scheme, rest with
    | c :: _, ':' :: '/' :: '/' :: rest2 =>
        if c.isAlpha && scheme.all isSchemeChar then
          match rest2.span (fun ch => !(ch == '/') && !(ch == '?')) with
          | (host, rest3) =>
            if host.isEmpty then none
            else
              match rest3.span (fun ch => !(ch == '?')) with
              | (path, qs) =>
                some ⟨scheme ++ [':'], host, if path.isEmpty then ['/'] else path, qs⟩
        else none
    | _, _ => none

/-- `String.prototype.trim`: strip whitespace from both ends. -/
def trimChars (l : List Char) : List Char :=
  ((l.dropWhile Char.isWhitespace).reverse.dropWhile Char.isWhitespace).reverse

/-- Embeds `normalizeUrl` (evaluate.js lines 38-52): on a parsed URL,
lowercase protocol and host, strip one trailing slash from a non-root
pathname, and keep the query; on a parse failure, fall back to
trim + lowercase + strip one trailing slash. -/
def normalizeUrl (u : String) : String :=
  if u = "" then ""
  else
    match parseUrl u.data with
    | some p =>
        let host := p.hostname.map Char.toLower
        let proto := p.protocol.map Char.toLower
        let pathname :=
          if 1 < p.pathname.length ∧ p.pathname.getLast? = some '/' then p.pathname.dropLast
          else p.pathname
        String.mk (proto ++ ['/', '/'] ++ host ++ pathname ++ p.search)
    | none =>
        let t := (trimChars u.data).map Char.toLower
        String.mk (if t.getLast? = some '/' then t.dropLast else t)

/-- The re-map `main` applies to the stored prediction before scoring
(evaluate.js line 279), text mode: `String(x)`, the identity on strings. -/
def scoredPredText (pred : List String) : List String :=
  pred.map (fun x => x)

/-- The re-map `main` applies to the stored prediction before scoring
(evaluate.js line 279), url mode: `normalizeUrl` again. -/
def scoredPredUrl (pred : List String) : List String :=
  pred.map normalizeUrl

/-! ### Basic facts about `uniqueOrder` -/

theorem mem_uniqueOrderAux {x : String} :
    ∀ {l seen : List String}, x ∈ uniqueOrderAux seen l ↔ x ∈ l ∧ x ∉ seen := by
  intro l
  induction l with
  | nil => intro seen; simp [uniqueOrderAux]
  | cons y ys ih =>
      intro seen
      by_cases hy : y ∈ seen
      · simp only [uniqueOrderAux, if_pos hy, ih, List.mem_cons]
        aesop
      · simp only [uniqueOrderAux, if_neg hy, List.mem_cons, ih]
        by_cases hxy : x = y <;> aesop

theorem mem_uniqueOrder {x : String} {l : List String} :
    x ∈ uniqueOrder l ↔ x ∈ l := by
  simp [uniqueOrder, mem_uniqueOrderAux]

theorem nodup_uniqueOrderAux : ∀ (l seen : List String), (uniqueOrderAux seen l).Nodup
  | [], _ => List.nodup_nil
  | y :: ys, seen => by
      by_cases hy : y ∈ seen
      · simpa [uniqueOrderAux, if_pos hy] using nodup_uniqueOrderAux ys seen
      · simp only [uniqueOrderAux, if_neg hy]
        refine List.Nodup.cons ?_ (nodup_uniqueOrderAux ys (y :: seen))
        intro hmem
        exact (mem_uniqueOrderAux.mp hmem).2 (List.mem_cons_self _ _)

theorem nodup_uniqueOrder (l : List String) : (uniqueOrder l).Nodup :=
  nodup_uniqueOrderAux l []

theorem uniqueOrderAux_sublist : ∀ (l seen : List String), List.Sublist (uniqueOrderAux seen l) l
  | [], _ => List.Sublist.refl _
  | y :: ys, seen => by
      by_cases hy : y ∈ seen
      · simpa [uniqueOrderAux, if_pos hy] using (uniqueOrderAux_sublist ys seen).cons y
      · simpa [uniqueOrderAux, if_neg hy] using (uniqueOrderAux_sublist ys (y :: seen)).cons₂ y

theorem uniqueOrder_sublist (l : List String) : List.Sublist (uniqueOrder l) l :=
  uniqueOrderAux_sublist l []

theorem toFinset_uniqueOrder (l : List String) :
    (uniqueOrder l).toFinset = l.toFinset := by
  ext x
  simp [mem_uniqueOrder]

theorem length_uniqueOrder (l : List String) :
    (uniqueOrder l).length = l.toFinset.card := by
  rw [← List.toFinset_card_of_nodup (nodup_uniqueOrder l), toFinset_uniqueOrder]

theorem uniqueOrderAux_eq_self :
    ∀ {l seen : List String}, l.Nodup → (∀ x ∈ l, x ∉ seen) → uniqueOrderAux seen l = l := by
  intro l
  induction l with
  | nil => intro seen _ _; rfl
  | cons y ys ih =>
      intro seen hnd hdis
      have hy : y ∉ seen := hdis y (List.mem_cons_self _ _)
      simp only [uniqueOrderAux, if_neg hy]
      congr 1
      refine ih (List.nodup_cons.mp hnd).2 ?_
      intro x hx
      simp only [List.mem_cons, not_or]
      exact ⟨fun hxy => (List.nodup_cons.mp hnd).1 (hxy ▸ hx),
             hdis x (List.mem_cons_of_mem _ hx)⟩

theorem uniqueOrder_of_nodup {l : List String} (h : l.Nodup) : uniqueOrder l = l :=
  uniqueOrderAux_eq_self h (by simp)

theorem uniqueOrder_idem (l : List String) :
    uniqueOrder (uniqueOrder l) = uniqueOrder l :=
  uniqueOrder_of_nodup (nodup_uniqueOrder l)

/-! ### Counting lemmas feeding the multiset metrics -/

theorem sum_map_uniqueOrder (l : List String) (f : String → ℕ) :
    ((uniqueOrder l).map f).sum = ∑ t ∈ l.toFinset, f t := by
  rw [← List.sum_toFinset f (nodup_uniqueOrder l), toFinset_uniqueOrder]

theorem sum_count_uniqueOrder (l : List String) :
    ((uniqueOrder l).map (fun t => l.count t)).sum = l.length := by
  rw [sum_map_uniqueOrder]
  exact List.sum_toFinset_count_eq_length l

theorem prfForText_tp (pred truth : List String) :
    (prfForText pred truth).tp = ∑ t ∈ pred.toFinset, min (pred.count t) (truth.count t) := by
  simp [prfForText, sum_map_uniqueOrder]

theorem prfForText_predCount (pred truth : List String) :
    (prfForText pred truth).predCount = pred.length := by
  simp [prfForText, sum_count_uniqueOrder]

theorem prfForText_truthCount (pred truth : List String) :
    (prfForText pred truth).truthCount = truth.length := by
  simp [prfForText, sum_count_uniqueOrder]

theorem prfForText_tp_le_predCount (pred truth : List String) :
    (prfForText pred truth).tp ≤ (prfForText pred truth).predCount := by
  rw [prfForText_tp, prfForText_predCount, ← List.sum_toFinset_count_eq_length pred]
  exact Finset.sum_le_sum (fun t _ => min_le_left _ _)

theorem sum_count_toFinset_le_length (s : Finset String) (truth : List String) :
    ∑ t ∈ s, truth.count t ≤ truth.length := by
  calc ∑ t ∈ s, truth.count t
      ≤ ∑ t ∈ s ∪ truth.toFinset, truth.count t :=
        Finset.sum_le_sum_of_subset Finset.subset_union_left
    _ = ∑ t ∈ truth.toFinset, truth.count t := by
        refine (Finset.sum_subset Finset.subset_union_right ?_).symm
        intro x _ hx
        exact List.count_eq_zero.mpr (fun h => hx (List.mem_toFinset.mpr h))
    _ = truth.length := List.sum_toFinset_count_eq_length truth

theorem prfForText_tp_le_truthCount (pred truth : List String) :
    (prfForText pred truth).tp ≤ (prfForText pred truth).truthCount := by
  rw [prfForText_tp, prfForText_truthCount]
  calc ∑ t ∈ pred.toFinset, min (pred.count t) (truth.count t)
      ≤ ∑ t ∈ pred.toFinset, truth.count t :=
        Finset.sum_le_sum (fun t _ => min_le_right _ _)
    _ ≤ truth.length := sum_count_toFinset_le_length _ truth

/-- Shared bound: the guarded quotient `tp / total` lies in `[0, 1]`
whenever `tp ≤ total` (both naturals). -/
theorem guarded_div_bounds {tp total : ℕ} (h : tp ≤ total) :
    0 ≤ (if total = 0 then (0 : ℚ) else (tp : ℚ) / total) ∧
      (if total = 0 then (0 : ℚ) else (tp : ℚ) / total) ≤ 1 := by
  split
  · exact ⟨le_refl 0, zero_le_one⟩
  · rename_i h0
    have hpos : (0 : ℚ) < total := by
      exact_mod_cast Nat.pos_of_ne_zero h0
    constructor
    · positivity
    · rw [div_le_one hpos]
      exact_mod_cast h

/-- Shared bound: the guarded harmonic mean `2PR/(P+R)` lies in `[0, 1]`
for `P, R ∈ [0, 1]`. -/
theorem f1_bounds {P R : ℚ} (hP0 : 0 ≤ P) (hP1 : P ≤ 1) (hR0 : 0 ≤ R) (hR1 : R ≤ 1) :
    0 ≤ (if P + R = 0 then (0 : ℚ) else 2 * P * R / (P + R)) ∧
      (if P + R = 0 then (0 : ℚ) else 2 * P * R / (P + R)) ≤ 1 := by
  split
  · exact ⟨le_refl 0, zero_le_one⟩
  · rename_i h0
    have hpos : 0 < P + R := lt_of_le_of_ne (by positivity) (Ne.symm h0)
    constructor
    · positivity
    · rw [div_le_one hpos]
      nlinarith

/-! ### Field characterizations of the two precision/recall/F1 records -/

theorem prfForText_precision (pred truth : List String) :
    (prfForText pred truth).precision =
      if (prfForText pred truth).predCount = 0 then 0
      else ((prfForText pred truth).tp : ℚ) / (prfForText pred truth).predCount := by
  simp only [prfForText]

theorem prfForText_recall (pred truth : List String) :
    (prfForText pred truth).recall =
      if (prfForText pred truth).truthCount = 0 then 0
      else ((prfForText pred truth).tp : ℚ) / (prfForText pred truth).truthCount := by
  simp only [prfForText]

theorem prfForText_f1 (pred truth : List String) :
    (prfForText pred truth).f1 =
      if (prfForText pred truth).precision + (prfForText pred truth).recall = 0 then 0
      else 2 * (prfForText pred truth).precision * (prfForText pred truth).recall /
        ((prfForText pred truth).precision + (prfForText pred truth).recall) := by
  simp only [prfForText]

theorem prfForText_precision_bounds (pred truth : List String) :
    0 ≤ (prfForText pred truth).precision ∧ (prfForText pred truth).precision ≤ 1 := by
  rw [prfForText_precision]
  exact guarded_div_bounds (prfForText_tp_le_predCount pred truth)

theorem prfForText_recall_bounds (pred truth : List String) :
    0 ≤ (prfForText pred truth).recall ∧ (prfForText pred truth).recall ≤ 1 := by
  rw [prfForText_recall]
  exact guarded_div_bounds (prfForText_tp_le_truthCount pred truth)

theorem prfForText_f1_bounds (pred truth : List String) :
    0 ≤ (prfForText pred truth).f1 ∧ (prfForText pred truth).f1 ≤ 1 := by
  rw [prfForText_f1]
  exact f1_bounds (prfForText_precision_bounds pred truth).1
    (prfForText_precision_bounds pred truth).2
    (prfForText_recall_bounds pred truth).1 (prfForText_recall_bounds pred truth).2

theorem precisionRecallF1_tp (pred truth : List String) :
    (precisionRecallF1 pred truth).tp =
      ((uniqueOrder pred).filter (fun x => decide (x ∈ uniqueOrder truth))).length := by
  simp only [precisionRecallF1]

/-- A duplicate-free list of elements of `t` is no longer than the number of
distinct elements of `t`. -/
theorem length_filter_mem_le (l t : List String) (h : l.Nodup) :
    (l.filter (fun x => decide (x ∈ t))).length ≤ t.toFinset.card := by
  have hnd : (l.filter (fun x => decide (x ∈ t))).Nodup := h.filter _
  rw [← List.toFinset_card_of_nodup hnd]
  refine Finset.card_le_card ?_
  intro x hx
  rw [List.mem_toFinset] at hx ⊢
  exact of_decide_eq_true (List.mem_filter.mp hx).2

theorem precisionRecallF1_tp_le_setPred (pred truth : List String) :
    (precisionRecallF1 pred truth).tp ≤ (uniqueOrder pred).length := by
  rw [precisionRecallF1_tp]
  exact List.length_filter_le _ _

theorem precisionRecallF1_tp_le_setTruth (pred truth : List String) :
    (precisionRecallF1 pred truth).tp ≤ (uniqueOrder truth).length := by
  rw [precisionRecallF1_tp, length_uniqueOrder]
  have := length_filter_mem_le (uniqueOrder pred) (uniqueOrder truth) (nodup_uniqueOrder pred)
  rwa [toFinset_uniqueOrder] at this

theorem precisionRecallF1_precision (pred truth : List String) :
    (precisionRecallF1 pred truth).precision =
      if (uniqueOrder pred).length = 0 then 0
      else ((precisionRecallF1 pred truth).tp : ℚ) / (uniqueOrder pred).length := by
  simp only [precisionRecallF1]

theorem precisionRecallF1_recall (pred truth : List String) :
    (precisionRecallF1 pred truth).recall =
      if (uniqueOrder truth).length = 0 then 0
      else ((precisionRecallF1 pred truth).tp : ℚ) / (uniqueOrder truth).length := by
  simp only [precisionRecallF1]

theorem precisionRecallF1_f1 (pred truth : List String) :
    (precisionRecallF1 pred truth).f1 =
      if (precisionRecallF1 pred truth).precision + (precisionRecallF1 pred truth).recall = 0
      then 0
      else 2 * (precisionRecallF1 pred truth).precision * (precisionRecallF1 pred truth).recall /
        ((precisionRecallF1 pred truth).precision + (precisionRecallF1 pred truth).recall) := by
  simp only [precisionRecallF1]

theorem precisionRecallF1_precision_bounds (pred truth : List String) :
    0 ≤ (precisionRecallF1 pred truth).precision ∧
      (precisionRecallF1 pred truth).precision ≤ 1 := by
  rw [precisionRecallF1_precision]
  exact guarded_div_bounds (precisionRecallF1_tp_le_setPred pred truth)

theorem precisionRecallF1_recall_bounds (pred truth : List String) :
    0 ≤ (precisionRecallF1 pred truth).recall ∧ (precisionRecallF1 pred truth).recall ≤ 1 := by
  rw [precisionRecallF1_recall]
  exact guarded_div_bounds (precisionRecallF1_tp_le_setTruth pred truth)

theorem precisionRecallF1_f1_bounds (pred truth : List String) :
    0 ≤ (precisionRecallF1 pred truth).f1 ∧ (precisionRecallF1 pred truth).f1 ≤ 1 := by
  rw [precisionRecallF1_f1]
  exact f1_bounds (precisionRecallF1_precision_bounds pred truth).1
    (precisionRecallF1_precision_bounds pred truth).2
    (precisionRecallF1_recall_bounds pred truth).1
    (precisionRecallF1_recall_bounds pred truth).2

/-! ### Average precision and reciprocal rank bounds -/

theorem apAux_nonneg (truth : List String) :
    ∀ (l : List String) (hit i : ℕ), 0 ≤ apAux truth hit i l
  | [], _, _ => le_refl 0
  | p :: ps, hit, i => by
      simp only [apAux]
      split
      · have h1 : (0 : ℚ) ≤ ((hit : ℚ) + 1) / ((i : ℚ) + 1) := by positivity
        have h2 := apAux_nonneg truth ps (hit + 1) (i + 1)
        linarith
      · exact apAux_nonneg truth ps hit (i + 1)

theorem apAux_le_countP (truth : List String) :
    ∀ (l : List String) (hit i : ℕ), hit ≤ i →
      apAux truth hit i l ≤ (l.countP (fun p => decide (p ∈ truth)) : ℚ)
  | [], _, _, _ => by simp [apAux]
  | p :: ps, hit, i, h => by
      by_cases hp : p ∈ truth
      · have hterm : ((hit : ℚ) + 1) / ((i : ℚ) + 1) ≤ 1 := by
          rw [div_le_one (by positivity)]
          have : (hit : ℚ) ≤ (i : ℚ) := by exact_mod_cast h
          linarith
        have hrec := apAux_le_countP truth ps (hit + 1) (i + 1) (by omega)
        have hcount : (p :: ps).countP (fun q => decide (q ∈ truth)) =
            ps.countP (fun q => decide (q ∈ truth)) + 1 := by
          simp [List.countP_cons, hp]
        simp only [apAux]
        rw [if_pos hp, hcount]
        push_cast
        linarith
      · have hrec := apAux_le_countP truth ps hit (i + 1) (by omega)
        have hcount : (p :: ps).countP (fun q => decide (q ∈ truth)) =
            ps.countP (fun q => decide (q ∈ truth)) := by
          simp [List.countP_cons, hp]
        simp only [apAux]
        rw [if_neg hp, hcount]
        exact hrec

theorem countP_mem_le_card_toFinset {pred : List String} (truth : List String)
    (h : pred.Nodup) :
    pred.countP (fun p => decide (p ∈ truth)) ≤ truth.toFinset.card := by
  rw [List.countP_eq_length_filter]
  exact length_filter_mem_le pred truth h

theorem averagePrecision_nonneg (pred truth : List String) :
    0 ≤ averagePrecision pred truth := by
  rw [averagePrecision]
  split
  · exact le_refl 0
  · have := apAux_nonneg truth pred 0 0
    positivity

theorem averagePrecision_le_one (pred truth : List String) (h : pred.Nodup) :
    averagePrecision pred truth ≤ 1 := by
  rw [averagePrecision]
  split
  · exact zero_le_one
  · rename_i h0
    have hpos : (0 : ℚ) < ((uniqueOrder truth).length : ℚ) := by
      exact_mod_cast Nat.pos_of_ne_zero h0
    rw [div_le_one hpos]
    calc apAux truth 0 0 pred
        ≤ (pred.countP (fun p => decide (p ∈ truth)) : ℚ) :=
          apAux_le_countP truth pred 0 0 (le_refl 0)
      _ ≤ ((uniqueOrder truth).length : ℚ) := by
          rw [length_uniqueOrder]
          exact_mod_cast countP_mem_le_card_toFinset truth h

theorem reciprocalRank_bounds (pred truth : List String) :
    0 ≤ reciprocalRank pred truth ∧ reciprocalRank pred truth ≤ 1 := by
  rw [reciprocalRank]
  cases pred.findIdx? (fun p => decide (p ∈ truth)) with
  | none => exact ⟨le_refl 0, zero_le_one⟩
  | some i =>
      constructor
      · positivity
      · rw [div_le_one (by positivity)]
        have : (0 : ℚ) ≤ (i : ℚ) := by positivity
        linarith

/-- `averagePrecision` ignores truth multiplicities: deduplicating the truth
list changes nothing. -/
theorem averagePrecision_dedup_truth (pred truth : List String) :
    averagePrecision pred (uniqueOrder truth) = averagePrecision pred truth := by
  have hmem : ∀ p : String, (p ∈ uniqueOrder truth) = (p ∈ truth) := by
    intro p; exact propext mem_uniqueOrder
  have haux : ∀ (l : List String) (hit i : ℕ),
      apAux (uniqueOrder truth) hit i l = apAux truth hit i l := by
    intro l
    induction l with
    | nil => intro hit i; rfl
    | cons p ps ih =>
        intro hit i
        simp only [apAux, hmem, ih]
  rw [averagePrecision, averagePrecision, uniqueOrder_idem, haux]

/-! ### nDCG bounds -/

theorem logb_two_pos (i : ℕ) : 0 < Real.logb 2 ((i : ℝ) + 2) := by
  refine Real.logb_pos (by norm_num) ?_
  have : (0 : ℝ) ≤ (i : ℝ) := Nat.cast_nonneg i
  linarith

theorem discount_antitone (i : ℕ) :
    1 / Real.logb 2 (((i : ℝ) + 1) + 2) ≤ 1 / Real.logb 2 ((i : ℝ) + 2) := by
  refine one_div_le_one_div_of_le (logb_two_pos i) ?_
  refine Real.logb_le_logb_of_le (by norm_num) ?_ (by linarith)
  have : (0 : ℝ) ≤ (i : ℝ) := Nat.cast_nonneg i
  linarith

theorem dcgAux_nonneg : ∀ (gs : List ℕ) (i : ℕ), 0 ≤ dcgAux i gs
  | [], _ => le_refl 0
  | g :: gs, i => by
      simp only [dcgAux]
      have h1 : (0 : ℝ) ≤ (g : ℝ) / Real.logb 2 ((i : ℝ) + 2) :=
        div_nonneg (Nat.cast_nonneg g) (logb_two_pos i).le
      have h2 := dcgAux_nonneg gs (i + 1)
      linarith

theorem dcgAux_replicate_succ (i n : ℕ) :
    dcgAux i (List.replicate (n + 1) 1) =
      1 / Real.logb 2 ((i : ℝ) + 2) + dcgAux (i + 1) (List.replicate n 1) := by
  simp [List.replicate_succ, dcgAux]

theorem dcgAux_replicate_shift :
    ∀ (n i : ℕ), dcgAux (i + 1) (List.replicate n 1) ≤ dcgAux i (List.replicate n 1)
  | 0, _ => le_refl 0
  | n + 1, i => by
      rw [dcgAux_replicate_succ, dcgAux_replicate_succ]
      have h1 := discount_antitone i
      have h2 := dcgAux_replicate_shift n (i + 1)
      push_cast at *
      linarith

theorem dcgAux_replicate_mono :
    ∀ {n m : ℕ} (i : ℕ), n ≤ m →
      dcgAux i (List.replicate n 1) ≤ dcgAux i (List.replicate m 1)
  | 0, m, i, _ => dcgAux_nonneg _ i
  | n + 1, 0, _, h => absurd h (by omega)
  | n + 1, m + 1, i, h => by
      rw [dcgAux_replicate_succ, dcgAux_replicate_succ]
      have := dcgAux_replicate_mono (i + 1) (Nat.succ_le_succ_iff.mp h)
      linarith

/-- Rearrangement bound: a 0/1 gain vector scores at most the same number of
unit gains packed at the front. -/
theorem dcgAux_le_replicate_countP :
    ∀ (gs : List ℕ), (∀ g ∈ gs, g = 0 ∨ g = 1) → ∀ (i : ℕ),
      dcgAux i gs ≤ dcgAux i (List.replicate (gs.countP (fun g => decide (g = 1))) 1)
  | [], _, _ => le_refl 0
  | g :: gs, hg, i => by
      have hrest : ∀ x ∈ gs, x = 0 ∨ x = 1 := fun x hx => hg x (List.mem_cons_of_mem _ hx)
      rcases hg g (List.mem_cons_self _ _) with rfl | rfl
      · have hcount : (0 :: gs : List ℕ).countP (fun g => decide (g = 1)) =
            gs.countP (fun g => decide (g = 1)) := by
          simp [List.countP_cons]
        rw [hcount]
        have h1 := dcgAux_le_replicate_countP gs hrest (i + 1)
        have h2 := dcgAux_replicate_shift (gs.countP (fun g => decide (g = 1))) i
        simp only [dcgAux, Nat.cast_zero, zero_div, zero_add]
        linarith
      · have hcount : (1 :: gs : List ℕ).countP (fun g => decide (g = 1)) =
            gs.countP (fun g => decide (g = 1)) + 1 := by
          simp [List.countP_cons]
        rw [hcount, dcgAux_replicate_succ]
        have h1 := dcgAux_le_replicate_countP gs hrest (i + 1)
        simp only [dcgAux, Nat.cast_one]
        linarith

theorem ndcgAtK_nonneg (pred truth : List String) (k : ℕ) :
    0 ≤ ndcgAtK pred truth k := by
  simp only [ndcgAtK]
  split
  · rename_i hpos
    exact div_nonneg (dcgAux_nonneg _ 0) (le_of_lt hpos)
  · exact le_refl 0

theorem ndcgAtK_le_one (pred truth : List String) (k : ℕ) (h : pred.Nodup) :
    ndcgAtK pred truth k ≤ 1 := by
  simp only [ndcgAtK]
  split
  · rename_i hpos
    rw [div_le_one hpos]
    set gains := (pred.take k).map (fun p => if p ∈ truth then (1 : ℕ) else 0) with hgains
    have hbin : ∀ g ∈ gains, g = 0 ∨ g = 1 := by
      intro g hgmem
      rw [hgains] at hgmem
      rcases List.mem_map.mp hgmem with ⟨p, _, rfl⟩
      by_cases hp : p ∈ truth <;> simp [hp]
    have hcount : gains.countP (fun g => decide (g = 1)) =
        (pred.take k).countP (fun p => decide (p ∈ truth)) := by
      rw [hgains, List.countP_map]
      refine List.countP_congr ?_
      intro p _
      by_cases hp : p ∈ truth <;> simp [hp, Function.comp]
    have hle_k : gains.countP (fun g => decide (g = 1)) ≤ k := by
      calc gains.countP (fun g => decide (g = 1)) ≤ gains.length := List.countP_le_length _
        _ = (pred.take k).length := by rw [hgains, List.length_map]
        _ ≤ k := List.length_take_le _ _
    have hle_t : gains.countP (fun g => decide (g = 1)) ≤ truth.length := by
      rw [hcount]
      calc (pred.take k).countP (fun p => decide (p ∈ truth))
          ≤ truth.toFinset.card :=
            countP_mem_le_card_toFinset truth (h.sublist (List.take_sublist _ _))
        _ ≤ truth.length := List.toFinset_card_le truth
    calc dcgAux 0 gains
        ≤ dcgAux 0 (List.replicate (gains.countP (fun g => decide (g = 1))) 1) :=
          dcgAux_le_replicate_countP gains hbin 0
      _ ≤ dcgAux 0 (List.replicate (min k truth.length) 1) :=
          dcgAux_replicate_mono 0 (le_min hle_k hle_t)
  · exact zero_le_one

theorem prfForText_tp_union (pred truth : List String) :
    (prfForText pred truth).tp =
      ∑ t ∈ pred.toFinset ∪ truth.toFinset, min (pred.count t) (truth.count t) := by
  rw [prfForText_tp]
  refine Finset.sum_subset Finset.subset_union_left ?_
  intro x _ hx
  have : pred.count x = 0 := List.count_eq_zero.mpr (fun h => hx (List.mem_toFinset.mpr h))
  simp [this]

/-! ## Claim theorems -/

/-- C1 counterexample: the claim that all six metrics always lie in `[0, 1]`
fails — with the duplicated prediction `["a","a"]` against truth `["a"]`,
both average precision and nDCG@2 exceed 1. -/
theorem metrics_bounds_counterexample :
    1 < averagePrecision ["a", "a"] ["a"] ∧ 1 < ndcgAtK ["a", "a"] ["a"] 2 := by
  constructor
  · have : averagePrecision ["a", "a"] ["a"] = 2 := by
      simp +decide [averagePrecision, apAux, uniqueOrder, uniqueOrderAux]
      norm_num
    rw [this]
    norm_num
  · have h2 : Real.logb 2 2 = 1 := Real.logb_self_eq_one (by norm_num)
    have h3 : (0 : ℝ) < Real.logb 2 3 := Real.logb_pos (by norm_num) (by norm_num)
    simp +decide [ndcgAtK, dcgAux, h2]
    have h13 : (1 : ℝ) + 2 = 3 := by norm_num
    rw [h13]
    exact h3

/-- C1 (amended): for every predicted and truth sequence, precision, recall
and F1 (both the set-based and the multiset-based variant) and reciprocal
rank lie in `[0, 1]`; average precision and nDCG@k also lie in `[0, 1]`
provided the predicted sequence contains no duplicates (which the harness
guarantees by passing predictions through `uniqueOrder`). -/
theorem metrics_bounded_of_nodup (pred truth : List String) (k : ℕ) (h : pred.Nodup) :
    (0 ≤ (prfForText pred truth).precision ∧ (prfForText pred truth).precision ≤ 1) ∧
    (0 ≤ (prfForText pred truth).recall ∧ (prfForText pred truth).recall ≤ 1) ∧
    (0 ≤ (prfForText pred truth).f1 ∧ (prfForText pred truth).f1 ≤ 1) ∧
    (0 ≤ (precisionRecallF1 pred truth).precision ∧
      (precisionRecallF1 pred truth).precision ≤ 1) ∧
    (0 ≤ (precisionRecallF1 pred truth).recall ∧
      (precisionRecallF1 pred truth).recall ≤ 1) ∧
    (0 ≤ (precisionRecallF1 pred truth).f1 ∧ (precisionRecallF1 pred truth).f1 ≤ 1) ∧
    (0 ≤ averagePrecision pred truth ∧ averagePrecision pred truth ≤ 1) ∧
    (0 ≤ reciprocalRank pred truth ∧ reciprocalRank pred truth ≤ 1) ∧
    (0 ≤ ndcgAtK pred truth k ∧ ndcgAtK pred truth k ≤ 1) :=
  ⟨prfForText_precision_bounds pred truth, prfForText_recall_bounds pred truth,
   prfForText_f1_bounds pred truth, precisionRecallF1_precision_bounds pred truth,
   precisionRecallF1_recall_bounds pred truth, precisionRecallF1_f1_bounds pred truth,
   ⟨averagePrecision_nonneg pred truth, averagePrecision_le_one pred truth h⟩,
   reciprocalRank_bounds pred truth,
   ⟨ndcgAtK_nonneg pred truth k, ndcgAtK_le_one pred truth k h⟩⟩

/-- Witness for `metrics_bounded_of_nodup` at
`pred = ["a","b"]`, `truth = ["a"]`, `k = 2`. -/
theorem metrics_bounded_of_nodup_witness :
    (["a", "b"] : List String).Nodup ∧
    ((0 ≤ (prfForText ["a", "b"] ["a"]).precision ∧
        (prfForText ["a", "b"] ["a"]).precision ≤ 1) ∧
     (0 ≤ (prfForText ["a", "b"] ["a"]).recall ∧ (prfForText ["a", "b"] ["a"]).recall ≤ 1) ∧
     (0 ≤ (prfForText ["a", "b"] ["a"]).f1 ∧ (prfForText ["a", "b"] ["a"]).f1 ≤ 1) ∧
     (0 ≤ (precisionRecallF1 ["a", "b"] ["a"]).precision ∧
       (precisionRecallF1 ["a", "b"] ["a"]).precision ≤ 1) ∧
     (0 ≤ (precisionRecallF1 ["a", "b"] ["a"]).recall ∧
       (precisionRecallF1 ["a", "b"] ["a"]).recall ≤ 1) ∧
     (0 ≤ (precisionRecallF1 ["a", "b"] ["a"]).f1 ∧
       (precisionRecallF1 ["a", "b"] ["a"]).f1 ≤ 1) ∧
     (0 ≤ averagePrecision ["a", "b"] ["a"] ∧ averagePrecision ["a", "b"] ["a"] ≤ 1) ∧
     (0 ≤ reciprocalRank ["a", "b"] ["a"] ∧ reciprocalRank ["a", "b"] ["a"] ≤ 1) ∧
     (0 ≤ ndcgAtK ["a", "b"] ["a"] 2 ∧ ndcgAtK ["a", "b"] ["a"] 2 ≤ 1)) :=
  ⟨by decide, metrics_bounded_of_nodup ["a", "b"] ["a"] 2 (by decide)⟩

/-- C2 counterexample: `averagePrecision` is not multiset-aware — on
predicted `["a","b","a"]` against truth `["a","a"]` it returns `5/3`
(both occurrences of `"a"` hit, and the sum is divided by the size 1 of
the deduplicated truth set), not the claimed `(1 + 2/3)/2 = 5/6`. -/
theorem averagePrecision_multiset_counterexample :
    averagePrecision ["a", "b", "a"] ["a", "a"] = 5 / 3 ∧
      averagePrecision ["a", "b", "a"] ["a", "a"] ≠ 5 / 6 := by
  have h : averagePrecision ["a", "b", "a"] ["a", "a"] = 5 / 3 := by
    simp +decide [averagePrecision, apAux, uniqueOrder, uniqueOrderAux]
    norm_num
  exact ⟨h, by rw [h]; norm_num⟩

/-- C2 (amended): `averagePrecision` is order-sensitive but set-based, not
multiset-aware: truth multiplicities are ignored (deduplicating the truth
list changes nothing), every predicted occurrence of a token in the truth
set counts as a hit, and the example `["a","b","a"]` vs `["a","a"]`
evaluates to `(1/1 + 2/3)/1 = 5/3`. -/
theorem averagePrecision_set_based :
    (∀ pred truth : List String,
        averagePrecision pred (uniqueOrder truth) = averagePrecision pred truth) ∧
      averagePrecision ["a", "b", "a"] ["a", "a"] = 5 / 3 := by
  refine ⟨averagePrecision_dedup_truth, ?_⟩
  simp +decide [averagePrecision, apAux, uniqueOrder, uniqueOrderAux]
  norm_num

/-- C4: the multiset precision/recall/F1 computation satisfies
`tp = Σ_token min(count_pred, count_truth)`, `predCount`/`truthCount` are
the total multiplicities, precision and recall are the guarded quotients,
F1 is the guarded harmonic mean, and the concrete scenario
`["r","R","x"]` vs `["r","R","r"]` gives `tp = 2` and `P = R = F1 = 2/3`. -/
theorem prfForText_multiset_spec :
    (∀ pred truth : List String,
      (prfForText pred truth).tp =
          ∑ t ∈ pred.toFinset ∪ truth.toFinset, min (pred.count t) (truth.count t) ∧
        (prfForText pred truth).predCount = pred.length ∧
        (prfForText pred truth).truthCount = truth.length ∧
        (prfForText pred truth).precision =
          (if pred.length = 0 then 0 else ((prfForText pred truth).tp : ℚ) / pred.length) ∧
        (prfForText pred truth).recall =
          (if truth.length = 0 then 0 else ((prfForText pred truth).tp : ℚ) / truth.length) ∧
        (prfForText pred truth).f1 =
          (if (prfForText pred truth).precision = 0 ∧ (prfForText pred truth).recall = 0
           then 0
           else 2 * (prfForText pred truth).precision * (prfForText pred truth).recall /
             ((prfForText pred truth).precision + (prfForText pred truth).recall))) ∧
      prfForText ["r", "R", "x"] ["r", "R", "r"] = ⟨2/3, 2/3, 2/3, 2, 3, 3⟩ := by
  constructor
  · intro pred truth
    refine ⟨prfForText_tp_union pred truth, prfForText_predCount pred truth,
      prfForText_truthCount pred truth, ?_, ?_, ?_⟩
    · rw [prfForText_precision, prfForText_predCount]
    · rw [prfForText_recall, prfForText_truthCount]
    · rw [prfForText_f1]
      have hzero : (prfForText pred truth).precision + (prfForText pred truth).recall = 0 ↔
          (prfForText pred truth).precision = 0 ∧ (prfForText pred truth).recall = 0 :=
        add_eq_zero_iff_of_nonneg (prfForText_precision_bounds pred truth).1
          (prfForText_recall_bounds pred truth).1
      by_cases hc : (prfForText pred truth).precision + (prfForText pred truth).recall = 0
      · rw [if_pos hc, if_pos (hzero.mp hc)]
      · rw [if_neg hc, if_neg (fun hand => hc (hzero.mpr hand))]
  · simp +decide [prfForText, uniqueOrder, uniqueOrderAux]
    norm_num

/-- C5: the multiset true-positive count never exceeds
`min(predCount, truthCount)`. -/
theorem prfForText_tp_le_min (pred truth : List String) :
    (prfForText pred truth).tp ≤
      min (prfForText pred truth).predCount (prfForText pred truth).truthCount :=
  le_min (prfForText_tp_le_predCount pred truth) (prfForText_tp_le_truthCount pred truth)

/-- C3 counterexample: load normalization does NOT preserve truth
multiplicities — a truth list with three occurrences of `"r"` has a single
occurrence after loading. -/
theorem normalizeTruths_multiplicity_counterexample :
    normalizeTruthsText ["r", "r", "r"] = ["r"] ∧
      normalizeTruthsText ["r", "r", "r"] ≠ ["r", "r", "r"] := by
  constructor <;> decide

/-- C3 (amended): load normalization maps truth entries and deduplicates
them, keeping the first occurrence of each entry in order: the result has
no duplicates, is a subsequence of the input, and keeps exactly the set of
input entries; three occurrences of `"r"` collapse to one. -/
theorem normalizeTruths_dedups :
    (∀ truth : List String,
        (normalizeTruthsText truth).Nodup ∧
        List.Sublist (normalizeTruthsText truth) truth ∧
        ∀ x, x ∈ normalizeTruthsText truth ↔ x ∈ truth) ∧
      normalizeTruthsText ["r", "r", "r"] = ["r"] := by
  constructor
  · intro truth
    have hmap : truth.map (fun x => x) = truth := List.map_id' truth
    refine ⟨nodup_uniqueOrder _, ?_, ?_⟩
    · rw [normalizeTruthsText, hmap]
      exact uniqueOrder_sublist truth
    · intro x
      rw [normalizeTruthsText, hmap]
      exact mem_uniqueOrder
  · decide

/-! ### Shape of the djb2 hex key -/

theorem hexDigitChar_mem (d : ℕ) (h : d < 16) :
    hexDigitChar d ∈ "0123456789abcdef".data := by
  interval_cases d <;> decide

theorem hexDigitsAux_length :
    ∀ (fuel n k : ℕ), n < 16 ^ k → n ≤ fuel → (hexDigitsAux fuel n).length ≤ k
  | 0, n, k, _, _ => by simp [hexDigitsAux]
  | fuel + 1, n, k, hnk, hnf => by
      by_cases h0 : n = 0
      · simp [hexDigitsAux, h0]
      · cases k with
        | zero =>
            exfalso
            simp only [pow_zero] at hnk
            omega
        | succ k =>
            have h1 : n / 16 < 16 ^ k := by
              rw [Nat.div_lt_iff_lt_mul (by norm_num : 0 < 16)]
              calc n < 16 ^ (k + 1) := hnk
                _ = 16 ^ k * 16 := by ring
            have h2 : n / 16 ≤ fuel := by
              have := Nat.div_lt_self (Nat.pos_of_ne_zero h0) (by norm_num : 1 < 16)
              omega
            have ih := hexDigitsAux_length fuel (n / 16) k h1 h2
            simp only [hexDigitsAux, if_neg h0, List.length_append, List.length_cons,
              List.length_nil]
            omega

theorem hexDigitsAux_mem :
    ∀ (fuel n : ℕ), ∀ c ∈ hexDigitsAux fuel n, c ∈ "0123456789abcdef".data
  | 0, n => by simp [hexDigitsAux]
  | fuel + 1, n => by
      by_cases h0 : n = 0
      · simp [hexDigitsAux, h0]
      · intro c hc
        simp only [hexDigitsAux, if_neg h0, List.mem_append, List.mem_singleton] at hc
        rcases hc with hc | rfl
        · exact hexDigitsAux_mem fuel (n / 16) c hc
        · exact hexDigitChar_mem _ (Nat.mod_lt _ (by norm_num))

theorem toHexString_length_le {n k : ℕ} (hn : n < 16 ^ k) (hk : 1 ≤ k) :
    (toHexString n).length ≤ k := by
  rw [toHexString]
  split
  · exact hk
  · exact hexDigitsAux_length n n k hn (le_refl n)

theorem toHexString_mem (n : ℕ) :
    ∀ c ∈ (toHexString n).data, c ∈ "0123456789abcdef".data := by
  rw [toHexString]
  split
  · intro c hc
    simp only [show ("0" : String).data = ['0'] from rfl, List.mem_singleton] at hc
    subst hc
    decide
  · exact hexDigitsAux_mem n n

theorem toUint32_lt (x : ℤ) : toUint32 x < 2 ^ 32 := by
  have h1 : x % (2 ^ 32 : ℤ) < 2 ^ 32 := Int.emod_lt_of_pos x (by norm_num)
  have h2 : (0 : ℤ) ≤ x % 2 ^ 32 := Int.emod_nonneg x (by norm_num)
  rw [toUint32]
  omega

theorem djb2_length_le (s : String) : (djb2 s).length ≤ 8 := by
  rw [djb2]
  refine toHexString_length_le ?_ (by norm_num)
  have := toUint32_lt (s.data.foldl (fun h c => djb2Step h c.toNat) 5381)
  calc toUint32 (s.data.foldl (fun h c => djb2Step h c.toNat) 5381) < 2 ^ 32 := this
    _ = 16 ^ 8 := by norm_num

theorem djb2_hex (s : String) :
    ∀ c ∈ (djb2 s).data, c ∈ "0123456789abcdef".data := by
  rw [djb2]
  exact toHexString_mem _

/-! ### Claim theorems for the cache key -/

/-- C8 counterexample: the serialized cache fingerprint is
`{"c":…,"q":…,"m":…,"k":…}` — it contains no `schemaVersion` field at all
(here shown at a concrete input: the canonical string is exactly the
literal below and the character sequence `schemaVersion` does not occur in
it). -/
theorem cacheKey_schemaVersion_counterexample :
    serializeKeyObj (Content.str "x") "y" (some "m") 10 =
      "\x7b\"c\":\"x\",\"q\":\"y\",\"m\":\"m\",\"k\":10\x7d" ∧
    ¬ List.IsInfix "schemaVersion".data
      (serializeKeyObj (Content.str "x") "y" (some "m") 10).data := by
  constructor
  · decide
  · decide

/-- C8 (amended): the cache key serializes the fingerprint
`{content, query, model, k}` (no schema version) to a canonical JSON
string, hashes it with djb2 into a short (≤ 8 characters) lowercase hex
key, and is a pure deterministic function of those four inputs. -/
theorem cacheKey_derivation (c c' : Content) (q q' : String) (m m' : Option String)
    (k k' : ℕ) (hc : c = c') (hq : q = q') (hm : m = m') (hk : k = k') :
    cacheKey c q m k = cacheKey c' q' m' k' ∧
    cacheKey c q m k = djb2 (serializeKeyObj c q m k) ∧
    (cacheKey c q m k).length ≤ 8 ∧
    ((cacheKey c q m k).data.all (fun ch => decide (ch ∈ "0123456789abcdef".data))) = true := by
  subst hc; subst hq; subst hm; subst hk
  refine ⟨rfl, rfl, djb2_length_le _, ?_⟩
  rw [List.all_eq_true]
  intro ch hch
  exact decide_eq_true (djb2_hex _ ch hch)

/-- Witness for `cacheKey_derivation` at a concrete fingerprint. -/
theorem cacheKey_derivation_witness :
    (Content.str "x" = Content.str "x" ∧ "y" = "y" ∧
      (some "m" : Option String) = some "m" ∧ (10 : ℕ) = 10) ∧
    (cacheKey (Content.str "x") "y" (some "m") 10 =
        cacheKey (Content.str "x") "y" (some "m") 10 ∧
      cacheKey (Content.str "x") "y" (some "m") 10 =
        djb2 (serializeKeyObj (Content.str "x") "y" (some "m") 10) ∧
      (cacheKey (Content.str "x") "y" (some "m") 10).length ≤ 8 ∧
      ((cacheKey (Content.str "x") "y" (some "m") 10).data.all
          (fun ch => decide (ch ∈ "0123456789abcdef".data))) = true) :=
  ⟨⟨rfl, rfl, rfl, rfl⟩,
    cacheKey_derivation (Content.str "x") (Content.str "x") "y" "y" (some "m") (some "m")
      10 10 rfl rfl rfl rfl⟩

/-- C7: cache round-trip — with caching enabled, a second `runOne` on the
same `(content, query, model, k)` fingerprint returns the first run's
`pred` and `elapsedMs`, reports `fromCache = true`, and performs no search
call, whatever the starting cache and whatever the second search would
have produced. -/
theorem runOne_cache_round_trip (cache : CacheMap) (content : Content) (query : String)
    (model : Option String) (k : ℕ) (a₁ a₂ : List String) (e₁ e₂ : ℕ) :
    ((runOne (runOne cache true content query model k a₁ e₁).2 true content query model k
        a₂ e₂).1.pred = (runOne cache true content query model k a₁ e₁).1.pred) ∧
    ((runOne (runOne cache true content query model k a₁ e₁).2 true content query model k
        a₂ e₂).1.elapsedMs = (runOne cache true content query model k a₁ e₁).1.elapsedMs) ∧
    ((runOne (runOne cache true content query model k a₁ e₁).2 true content query model k
        a₂ e₂).1.fromCache = true) ∧
    ((runOne (runOne cache true content query model k a₁ e₁).2 true content query model k
        a₂ e₂).1.searchCalls = 0) := by
  cases hc : cache (cacheKey content query model k) with
  | none =>
      simp [runOne, hc]
  | some entry =>
      cases entry with
      | none => simp [runOne, hc]
      | some e => simp [runOne, hc]

/-- C9: a cache entry that exists but does not parse (`readJSON` returns
the `null` fallback) is treated exactly as a miss — `runOne` proceeds to
the fresh computation, performing one search call, reporting
`fromCache = false` and producing the deduplicated truncated prediction. -/
theorem runOne_corrupt_entry_is_miss (cache : CacheMap) (content : Content)
    (query : String) (model : Option String) (k : ℕ) (a : List String) (e : ℕ)
    (h : cache (cacheKey content query model k) = some none) :
    (runOne cache true content query model k a e).1.fromCache = false ∧
    (runOne cache true content query model k a e).1.searchCalls = 1 ∧
    (runOne cache true content query model k a e).1.pred = (uniqueOrder a).take k ∧
    (runOne cache true content query model k a e).1.elapsedMs = e := by
  simp [runOne, h]

/-- Witness for `runOne_corrupt_entry_is_miss`: a cache whose every entry
is present but unparseable. -/
theorem runOne_corrupt_entry_is_miss_witness :
    ((fun _ => some none : CacheMap) (cacheKey (Content.str "x") "y" none 3) = some none) ∧
    ((runOne (fun _ => some none) true (Content.str "x") "y" none 3 ["a", "a"] 7).1.fromCache
        = false ∧
      (runOne (fun _ => some none) true (Content.str "x") "y" none 3 ["a", "a"] 7).1.searchCalls
        = 1 ∧
      (runOne (fun _ => some none) true (Content.str "x") "y" none 3 ["a", "a"] 7).1.pred
        = (uniqueOrder ["a", "a"]).take 3 ∧
      (runOne (fun _ => some none) true (Content.str "x") "y" none 3 ["a", "a"] 7).1.elapsedMs
        = 7) :=
  ⟨rfl, runOne_corrupt_entry_is_miss (fun _ => some none) (Content.str "x") "y" none 3
    ["a", "a"] 7 rfl⟩

/-- C10 counterexample: the stored prediction of a fresh url-mode run is
deduplicated, but the list `main` passes to the metric functions is that
list re-mapped through `normalizeUrl`, which is not idempotent — the
sites `https://a///` and `https://a//` normalize to the distinct stored
entries `https://a//` and `https://a/`, and the pre-scoring re-map sends
both to `https://a/`, so the scored list contains duplicates. -/
theorem scoredPred_duplicates_counterexample :
    ((runOne (fun _ => none) false (Content.str "") "" none 2
        (["https://a///", "https://a//"].map normalizeUrl) 0).1.pred =
      ["https://a//", "https://a/"] ∧
     ((runOne (fun _ => none) false (Content.str "") "" none 2
        (["https://a///", "https://a//"].map normalizeUrl) 0).1.pred).Nodup) ∧
    (scoredPredUrl ((runOne (fun _ => none) false (Content.str "") "" none 2
        (["https://a///", "https://a//"].map normalizeUrl) 0).1.pred) =
      ["https://a/", "https://a/"] ∧
     ¬ (scoredPredUrl ((runOne (fun _ => none) false (Content.str "") "" none 2
        (["https://a///", "https://a//"].map normalizeUrl) 0).1.pred)).Nodup) := by
  refine ⟨⟨by decide, by decide⟩, by decide, by decide⟩

/-- C10 (amended): in both modes the prediction recorded by a fresh
(non-cached) evaluation is the search output deduplicated (first
occurrences, order preserved — a subsequence of the raw output) and
truncated to at most `k` entries, so the stored list contains no
duplicates; in text mode the list passed to the metric functions is
exactly this stored list (`String(x)` is the identity on strings), while
in url mode it is the stored list re-mapped through `normalizeUrl`, which
can reintroduce duplicates. -/
theorem runOne_stored_pred_dedup :
    (∀ (xs : List String) (k : ℕ),
        ((uniqueOrder xs).take k).Nodup ∧
        ((uniqueOrder xs).take k).length ≤ k ∧
        List.Sublist ((uniqueOrder xs).take k) xs) ∧
    (∀ (cache : CacheMap) (content : Content) (query : String) (model : Option String)
        (k : ℕ) (a : List String) (e : ℕ),
        (runOne cache false content query model k a e).1.pred = (uniqueOrder a).take k) ∧
    (∀ pred : List String, scoredPredText pred = pred) ∧
    (∀ pred : List String, scoredPredUrl pred = pred.map normalizeUrl) := by
  refine ⟨?_, ?_, ?_, ?_⟩
  · intro xs k
    refine ⟨(nodup_uniqueOrder xs).sublist (List.take_sublist _ _), ?_, ?_⟩
    · exact List.length_take_le _ _
    · exact (List.take_sublist _ _).trans (uniqueOrder_sublist xs)
  · intro cache content query model k a e
    simp [runOne]
  · intro pred
    simp [scoredPredText]
  · intro pred
    rfl

theorem refillAux_inv {n limit : ℕ} {outcome : ℕ → PoolRes β} :
    ∀ (fuel : ℕ) (s : PoolState β), PoolInv n outcome s →
      PoolInv n outcome (refillAux limit n fuel s)
  | 0, s, h => h
  | fuel + 1, s, h => by
      rw [refillAux]
      split
      · rename_i hguard
        obtain ⟨res, idx, act⟩ := s
        obtain ⟨hlen, hidx, hact, hnd, hclaim, hblank⟩ := h
        obtain ⟨hroom, hmore⟩ := hguard
        simp only at hlen hidx hact hclaim hblank hroom hmore
        refine refillAux_inv fuel ⟨res, idx + 1, idx :: act⟩ ⟨hlen, ?_, ?_, ?_, ?_, ?_⟩
        · show idx + 1 ≤ n
          omega
        · show ∀ j ∈ idx :: act, j < idx + 1
          intro j hj
          rcases List.mem_cons.mp hj with rfl | hj
          · omega
          · exact Nat.lt_succ_of_lt (hact j hj)
        · show (idx :: act).Nodup
          exact List.nodup_cons.mpr ⟨fun hmem => absurd (hact _ hmem) (lt_irrefl _), hnd⟩
        · show ∀ i, i < idx + 1 → i ∉ idx :: act → res[i]? = some (some (outcome i))
          intro i hi hni
          simp only [List.mem_cons, not_or] at hni
          exact hclaim i (by omega) hni.2
        · show ∀ i, idx + 1 ≤ i → i < n → res[i]? = some none
          intro i hi hin
          exact hblank i (by omega) hin
      · exact h

theorem refill_inv {n limit : ℕ} {outcome : ℕ → PoolRes β} (s : PoolState β)
    (h : PoolInv n outcome s) : PoolInv n outcome (refill limit n s) :=
  refillAux_inv _ s h

theorem completeTask_inv {n limit : ℕ} {outcome : ℕ → PoolRes β} {j : ℕ}
    {s : PoolState β} (hj : j ∈ s.active) (h : PoolInv n outcome s) :
    PoolInv n outcome (completeTask limit n outcome j s) := by
  refine refill_inv _ ?_
  obtain ⟨res, idx, act⟩ := s
  obtain ⟨hlen, hidx, hact, hnd, hclaim, hblank⟩ := h
  simp only at hlen hidx hact hclaim hblank hj hnd
  have hjlt : j < idx := hact j hj
  refine ⟨?_, hidx, ?_, ?_, ?_, ?_⟩
  · show (res.set j (some (outcome j))).length = n
    simpa using hlen
  · show ∀ i ∈ act.erase j, i < idx
    intro i hi
    exact hact i (List.mem_of_mem_erase hi)
  · show (act.erase j).Nodup
    exact hnd.erase j
  · show ∀ i, i < idx → i ∉ act.erase j →
      (res.set j (some (outcome j)))[i]? = some (some (outcome i))
    intro i hi hni
    by_cases hij : i = j
    · subst hij
      exact List.getElem?_set_eq_of_lt _ (by omega)
    · rw [List.getElem?_set_ne (fun hh => hij hh.symm)]
      refine hclaim i hi ?_
      intro hmem
      exact hni ((List.mem_erase_of_ne hij).mpr hmem)
  · show ∀ i, idx ≤ i → i < n → (res.set j (some (outcome j)))[i]? = some none
    intro i hi hin
    have hij : j ≠ i := by omega
    rw [List.getElem?_set_ne hij]
    exact hblank i hi hin

theorem initPool_inv {limit : ℕ} {outcome : ℕ → PoolRes β} (n : ℕ) :
    PoolInv n outcome (initPool β limit n) := by
  refine refill_inv _ ⟨?_, Nat.zero_le n, ?_, ?_, ?_, ?_⟩
  · show (List.replicate n (none : Option (PoolRes β))).length = n
    exact List.length_replicate _ _
  · show ∀ j ∈ ([] : List ℕ), j < 0
    intro j hj
    cases hj
  · show ([] : List ℕ).Nodup
    exact List.nodup_nil
  · show ∀ i, i < 0 → i ∉ ([] : List ℕ) →
      (List.replicate n (none : Option (PoolRes β)))[i]? = some (some (outcome i))
    intro i hi
    omega
  · show ∀ i, 0 ≤ i → i < n →
      (List.replicate n (none : Option (PoolRes β)))[i]? = some none
    intro i _ hin
    rw [List.getElem?_replicate]
    simp [hin]

theorem foldl_poolStep_inv {n limit : ℕ} {outcome : ℕ → PoolRes β} :
    ∀ (sch : List ℕ) (acc : Option (PoolState β)) (s : PoolState β),
      (∀ s₀, acc = some s₀ → PoolInv n outcome s₀) →
      sch.foldl (poolStep limit n outcome) acc = some s → PoolInv n outcome s
  | [], acc, s, hacc, hfold => hacc s hfold
  | j :: rest, acc, s, hacc, hfold => by
      refine foldl_poolStep_inv rest (poolStep limit n outcome acc j) s ?_ hfold
      intro s₀ hs₀
      match hacc' : acc with
      | none =>
          simp only [poolStep] at hs₀
          cases hs₀
      | some s₁ =>
          simp only [poolStep] at hs₀
          split at hs₀
          · rename_i hj
            cases hs₀
            exact completeTask_inv hj (hacc s₁ rfl)
          · cases hs₀

/-- C6: for every item list, limit ≥ 1 and worker, whenever the pool runs
to completion under any completion schedule, it resolves to a result list
of the same length as the input whose `i`-th slot holds exactly the `i`-th
item's own worker outcome — the value, or the captured error message if
that worker threw — independently of the completion order and of whether
sibling workers failed. -/
theorem promisePool_spec (items : List α) (limit : ℕ)
    (worker : α → ℕ → Except String β) (sch : List ℕ) (s : PoolState β)
    (hlim : 1 ≤ limit) (hrun : runPool items limit worker sch = some s)
    (hdone : poolDone items.length s) :
    s.results.length = items.length ∧
    s.results = (List.range items.length).map (fun i => some (outcomeAt items worker i)) := by
  have hinv : PoolInv items.length (outcomeAt items worker) s := by
    refine foldl_poolStep_inv sch _ s ?_ hrun
    intro s₀ hs₀
    cases hs₀
    exact initPool_inv items.length
  obtain ⟨hlen, hidx, _, _, hclaim, _⟩ := hinv
  obtain ⟨hactive, hge⟩ := hdone
  refine ⟨hlen, ?_⟩
  apply List.ext_getElem?
  intro i
  by_cases hi : i < items.length
  · rw [hclaim i (by omega) (by simp [hactive]), List.getElem?_map, List.getElem?_range hi]
    rfl
  · have h1 : s.results[i]? = none := List.getElem?_eq_none (by omega)
    have h2 : ((List.range items.length).map
        (fun i => some (outcomeAt items worker i)))[i]? = none := by
      refine List.getElem?_eq_none ?_
      simp only [List.length_map, List.length_range]
      omega
    rw [h1, h2]

/-- Witness for `promisePool_spec`: items `[A,B,C,D]` with limit 2 under
the schedule where B settles first (with a thrown error) — A, C, D still
complete and every result sits at its own index. -/
theorem promisePool_spec_witness :
    ((1 : ℕ) ≤ 2 ∧
      runPool ["A", "B", "C", "D"] 2
          (fun a _ => if a = "B" then Except.error "B failed" else Except.ok a)
          [1, 0, 2, 3] =
        some ⟨[some (PoolRes.ok "A"), some (PoolRes.err "B failed"),
               some (PoolRes.ok "C"), some (PoolRes.ok "D")], 4, []⟩ ∧
      poolDone (["A", "B", "C", "D"] : List String).length
        (⟨[some (PoolRes.ok "A"), some (PoolRes.err "B failed"),
           some (PoolRes.ok "C"), some (PoolRes.ok "D")], 4, []⟩ : PoolState String)) ∧
    ((⟨[some (PoolRes.ok "A"), some (PoolRes.err "B failed"),
        some (PoolRes.ok "C"), some (PoolRes.ok "D")],
       4, []⟩ : PoolState String).results.length = (["A", "B", "C", "D"] : List String).length ∧
     (⟨[some (PoolRes.ok "A"), some (PoolRes.err "B failed"),
        some (PoolRes.ok "C"), some (PoolRes.ok "D")],
       4, []⟩ : PoolState String).results =
       (List.range (["A", "B", "C", "D"] : List String).length).map
         (fun i => some (outcomeAt ["A", "B", "C", "D"]
           (fun a _ => if a = "B" then Except.error "B failed" else Except.ok a) i))) :=
  ⟨⟨by decide, by decide, ⟨rfl, by decide⟩⟩,
    promisePool_spec ["A", "B", "C", "D"] 2
      (fun a _ => if a = "B" then Except.error "B failed" else Except.ok a)
      [1, 0, 2, 3]
      ⟨[some (PoolRes.ok "A"), some (PoolRes.err "B failed"),
        some (PoolRes.ok "C"), some (PoolRes.ok "D")], 4, []⟩
      (by decide) (by decide) ⟨rfl, by decide⟩⟩

end VibeSearch

